import Mathlib

/-!
Verification of the BDNS ETL orchestration and reconciliation engine.

The development shallowly embeds:
* the `etl_job` control table of `apps/ETL/sql/create_control_table.sql`
  together with the semantics of its `UNIQUE (entity, year, mes, tipo, stage)`
  constraint under PostgreSQL (NULL values compare distinct);
* the job state machine, reconciliation diff, changeset application,
  batch loader, statistics triggers, beneficiary canonical-name /
  pseudonym selection and FK-resolution of the ETL design
  (`Estrategia de Extraccion ETL`), modelled from the specification where
  the Python sources are not part of the repository snapshot;
* the frontend GraphQL service (`bdns_frontend/src/services/graphql.js`)
  and the dashboard statistics computation (`apps/frontend/src/App.vue`).
-/

namespace BDNS

/- ## Job Ledger table: `etl_job` (create_control_table.sql) -/

/-- A row of the `etl_job` table.  `mes` and `tipo` are nullable
(`INTEGER` and `CHAR(1)` without `NOT NULL`), modelled as `Option`. -/
structure EtlJobRow where
  entity : String
  year : Int
  mes : Option Int
  tipo : Option Char
  stage : String
  status : String
  retries : Nat
  deriving DecidableEq, Repr

/-- SQL equality as used by a (PostgreSQL, default `NULLS DISTINCT`)
`UNIQUE` constraint on a nullable column: two values collide only when
both are non-NULL and equal; a NULL never collides with anything,
not even another NULL. -/
def sqlUniqueEq {α : Type} [DecidableEq α] : Option α → Option α → Bool
  | some a, some b => a = b
  | _, _ => false

/-- Two `etl_job` rows violate `UNIQUE (entity, year, mes, tipo, stage)`
iff every one of the five columns collides under SQL unique-index
semantics. -/
def uniqueConflict (r1 r2 : EtlJobRow) : Bool :=
  (r1.entity = r2.entity : Bool) && (r1.year = r2.year : Bool) &&
  sqlUniqueEq r1.mes r2.mes && sqlUniqueEq r1.tipo r2.tipo &&
  (r1.stage = r2.stage : Bool)

/-- Whether inserting row `r` into `table` is accepted by the
`UNIQUE (entity, year, mes, tipo, stage)` constraint. -/
def insertAccepted (table : List EtlJobRow) (r : EtlJobRow) : Bool :=
  table.all (fun x => !uniqueConflict x r)

/-- Whether a whole table state is admissible under the constraint:
no row conflicts with a later row. -/
def tableAccepted : List EtlJobRow → Bool
  | [] => true
  | r :: rest => insertAccepted rest r && tableAccepted rest

/-- Identity of a ledger row in the sense of the specification:
the (entity, year, month, type, stage) tuple, NULLs included. -/
def rowIdentity (r : EtlJobRow) : String × Int × Option Int × Option Char × String :=
  (r.entity, r.year, r.mes, r.tipo, r.stage)

/-- The yearly `concesion` extract scope: `mes` and `tipo` are NULL,
exactly as the design's per-year concesiones pipeline produces. -/
def concesionRunningRow : EtlJobRow :=
  { entity := "concesion", year := 2024, mes := none, tipo := none
    stage := "extract", status := "running", retries := 0 }

/-- The same scope with non-NULL month and type. -/
def convocatoriaRunningRow : EtlJobRow :=
  { entity := "convocatoria", year := 2024, mes := some 1, tipo := some 'A'
    stage := "extract", status := "running", retries := 0 }

/- ## Reconciler: change detection (detect_changes, design §3) -/

/-- Identifier set of an id→hash association list (`set(d.keys)`). -/
def idsOf (l : List (Nat × Nat)) : Finset Nat :=
  (l.map Prod.fst).toFinset

/-- Stored hash of an identifier in an id→hash association list. -/
def hashOf (l : List (Nat × Nat)) (i : Nat) : Option Nat :=
  (l.find? (fun p => p.1 = i)).map Prod.snd

/-- The three identifier sets produced by one reconciliation run. -/
structure Changeset where
  nuevas : Finset Nat
  modificadas : Finset Nat
  eliminadas : Finset Nat
  deriving DecidableEq

/-- Modelled from the spec: `detect_changes.py` is not in the snapshot;
this follows the pseudocode of design §3 ("Algoritmo de deteccion") and
spec §4.6: `NUEVAS = ids_api - ids_local`, `ELIMINADAS = ids_local -
ids_api`, and for `ids_api & ids_local` keep the ids whose hash differs. -/
def detect_changes (api loc : List (Nat × Nat)) : Changeset :=
  let idsApi := idsOf api
  let idsLocal := idsOf loc
  { nuevas := idsApi \ idsLocal
    eliminadas := idsLocal \ idsApi
    modificadas := (idsApi ∩ idsLocal).filter (fun i => hashOf api i ≠ hashOf loc i) }

/- ## Job Ledger state machine (spec §4.1, design §5 "Reintentos") -/

/-- Status values of an `etl_job` row. -/
inductive JobStatus
  | pending
  | running
  | done
  | error
  deriving DecidableEq, Repr

/-- A job unit as seen by the state machine: the `status`, `retries` and
`last_error` columns of one `etl_job` row. -/
structure JobUnit where
  status : JobStatus
  retries : Nat
  lastError : Option String
  deriving DecidableEq, Repr

/-- A freshly scheduled unit: `status` defaults to `'pending'`,
`retries` to `0` (column defaults of `create_control_table.sql`). -/
def initJobUnit : JobUnit :=
  { status := .pending, retries := 0, lastError := none }

/-- The ledger operations of spec §4.1. -/
inductive LedgerOp
  | claimOp
  | completeOp
  | failOp (reason : String)
  deriving DecidableEq, Repr

/-- Modelled from the spec: the claim/complete/fail state machine of
§4.1/§3 is not shipped as code in the snapshot (only the `etl_job` DDL
and the design document are).  `claim` moves a `pending` unit to
`running`; `complete` moves `running` to `done`; `fail` moves `running`
to `error` incrementing `retries` and recording the reason, reverting to
`pending` while the incremented count is still below `maxRetries`.
An ineligible operation leaves the row unchanged (the caller receives
`AlreadyRunning`/`InvalidTransition` instead of a row update). -/
def stepJob (maxRetries : Nat) : LedgerOp → JobUnit → JobUnit
  | .claimOp, u =>
      if u.status = .pending then { u with status := .running } else u
  | .completeOp, u =>
      if u.status = .running then { u with status := .done } else u
  | .failOp reason, u =>
      if u.status = .running then
        { status := if u.retries + 1 < maxRetries then .pending else .error
          retries := u.retries + 1
          lastError := some reason }
      else u

/-- Running a sequence of ledger operations on one unit. -/
def runJob (maxRetries : Nat) (ops : List LedgerOp) (u : JobUnit) : JobUnit :=
  ops.foldl (fun s op => stepJob maxRetries op s) u

/- ## Loader: per-batch transaction (spec §4.4, design §5 "Transaccionalidad") -/

/-- A record of an enriched batch handed to the Loader. -/
structure LoadRow where
  id : Nat
  payload : Int
  deriving DecidableEq, Repr

/-- The single error a failed batch reports. -/
inductive BatchLoadError
  | batchFailed
  deriving DecidableEq, Repr

/-- Attempts every row of the batch inside one transaction, appending the
rows accepted so far; the first row-level failure (per the injected
row-validity predicate `ok`) aborts the whole attempt. -/
def insertRows (ok : LoadRow → Bool) (tbl : List LoadRow) :
    List LoadRow → Option (List LoadRow)
  | [] => some tbl
  | r :: rs => if ok r then insertRows ok (tbl ++ [r]) rs else none

/-- Modelled from the spec: `load_*.py` is not in the snapshot; design §5:
each batch is one transaction, rolled back automatically when any row of
the batch fails, and the failure is reported as a single
`BatchLoadError`.  Returns the committed table and the reported error,
if any: on failure the table is the pre-batch table unchanged. -/
def load_batch (ok : LoadRow → Bool) (tbl : List LoadRow)
    (batch : List LoadRow) : List LoadRow × Option BatchLoadError :=
  match insertRows ok tbl batch with
  | some committed => (committed, none)
  | none => (tbl, some .batchFailed)

/- ## Store, statistics triggers and changeset application
(spec §4.5/§4.6, design §2.5/§3) -/

/-- One `concesion` row as relevant to the statistics:
surrogate id, the (beneficiary, year, authority) dimensions,
amount and date. -/
structure Award where
  id : Nat
  beneficiario : Nat
  anio : Int
  organo : Nat
  importe : Int
  fecha : Nat
  deriving DecidableEq, Repr

/-- The key of `beneficiario_estadisticas_anuales`. -/
structure AggKey where
  beneficiario : Nat
  anio : Int
  organo : Nat
  deriving DecidableEq, Repr

/-- The aggregate dimensions of an award. -/
def keyOf (a : Award) : AggKey :=
  ⟨a.beneficiario, a.anio, a.organo⟩

/-- One row of `beneficiario_estadisticas_anuales`. -/
structure AggRow where
  numConcesiones : Nat
  importeTotal : Int
  importeMedio : Int
  fechaPrimera : Nat
  fechaUltima : Nat
  deriving DecidableEq, Repr

/-- The awards of one aggregate key. -/
def awardsForKey (k : AggKey) (l : List Award) : List Award :=
  l.filter (fun a => keyOf a = k)

/-- The aggregate implied by a key's current award set: `none` when the
set is empty (no row), otherwise count, total, mean and first/last date. -/
def computeAgg : List Award → Option AggRow
  | [] => none
  | a :: rest =>
      some { numConcesiones := (a :: rest).length
             importeTotal := ((a :: rest).map (·.importe)).sum
             importeMedio :=
               ((a :: rest).map (·.importe)).sum / ((a :: rest).length : Int)
             fechaPrimera := (rest.map (·.fecha)).foldl min a.fecha
             fechaUltima := (rest.map (·.fecha)).foldl max a.fecha }

/-- The store: the `concesion` rows plus the materialized
`beneficiario_estadisticas_anuales` table. -/
structure Store where
  awards : List Award
  stats : AggKey → Option AggRow

/-- Refreshing the statistics rows of the affected keys from the current
award rows — the work of one `fn_estadisticas_concesion_*` trigger
invocation (design §2.5: the trigger recomputes the touched aggregate
row, never delta arithmetic; spec §4.5 `onAwardChange`). -/
def refreshStats (ks : List AggKey) (aw : List Award)
    (stats : AggKey → Option AggRow) : AggKey → Option AggRow :=
  fun k => if k ∈ ks then computeAgg (awardsForKey k aw) else stats k

/-- Modelled from the spec: inserting one award row
(`INSERT ... ON CONFLICT DO NOTHING` on the surrogate id, design §2.3)
followed by the statistics trigger on the inserted row's key.  A
conflicting id inserts nothing and fires no trigger. -/
def insertAward (r : Award) (s : Store) : Store :=
  if s.awards.any (fun a => a.id = r.id) then s
  else
    { awards := r :: s.awards
      stats := refreshStats [keyOf r] (r :: s.awards) s.stats }

/-- Modelled from the spec: updating an award in place, reusing the same
surrogate id (spec §4.6 "modified → update-in-place"), followed by the
statistics trigger on the old and new keys of every updated row.  An id
matching no row updates nothing and fires no trigger. -/
def updateAward (r : Award) (s : Store) : Store :=
  let matched := s.awards.filter (fun a => a.id = r.id)
  if matched.isEmpty then s
  else
    let aw := s.awards.map (fun a => if a.id = r.id then r else a)
    { awards := aw
      stats := refreshStats (keyOf r :: matched.map keyOf) aw s.stats }

/-- Modelled from the spec: deleting an award by id, followed by the
statistics trigger on each deleted row's key (spec §4.6: delete cascades
the aggregate decrement via the same change hook).  An id matching no
row deletes nothing and fires no trigger. -/
def deleteAward (i : Nat) (s : Store) : Store :=
  let matched := s.awards.filter (fun a => a.id = i)
  if matched.isEmpty then s
  else
    { awards := s.awards.filter (fun a => ¬ a.id = i)
      stats := refreshStats (matched.map keyOf)
        (s.awards.filter (fun a => ¬ a.id = i)) s.stats }

/-- An award change event processed through the incremental hook. -/
inductive AwardOp
  | ins (r : Award)
  | upd (r : Award)
  | del (i : Nat)
  deriving DecidableEq, Repr

/-- One change event. -/
def stepAward : AwardOp → Store → Store
  | .ins r, s => insertAward r s
  | .upd r, s => updateAward r s
  | .del i, s => deleteAward i s

/-- A sequence of change events. -/
def runAwardOps (ops : List AwardOp) (s : Store) : Store :=
  ops.foldl (fun st op => stepAward op st) s

/-- The empty store. -/
def initStore : Store :=
  { awards := [], stats := fun _ => none }

/-- Full recomputation from the current award rows
(`recalcular_estadisticas --truncate`, spec §4.5 `rebuildAll`). -/
def rebuildAll (aw : List Award) : AggKey → Option AggRow :=
  fun k => computeAgg (awardsForKey k aw)

/-- A persisted changeset file as applied by `apply_changes`:
full records for the new and modified identifiers, bare identifiers for
the deleted ones. -/
structure SyncChangeset where
  nuevasRecs : List Award
  modificadasRecs : List Award
  eliminadasIds : List Nat
  deriving DecidableEq, Repr

/-- The insert phase of one changeset application. -/
def foldIns (l : List Award) (s : Store) : Store :=
  l.foldl (fun st r => insertAward r st) s

/-- The update phase of one changeset application. -/
def foldUpd (l : List Award) (s : Store) : Store :=
  l.foldl (fun st r => updateAward r st) s

/-- The delete phase of one changeset application. -/
def foldDel (l : List Nat) (s : Store) : Store :=
  l.foldl (fun st i => deleteAward i st) s

/-- Modelled from the spec: `apply_changes.py` is not in the snapshot;
design §3: `INSERT nuevas`, `UPDATE modificadas`, `DELETE eliminadas`,
with the statistics triggers updating the aggregates automatically. -/
def apply_changes (c : SyncChangeset) (s : Store) : Store :=
  foldDel c.eliminadasIds (foldUpd c.modificadasRecs (foldIns c.nuevasRecs s))

/-- Whether the store holds a row with the given surrogate id. -/
def hasId (s : Store) (i : Nat) : Prop :=
  ∃ a ∈ s.awards, a.id = i

/-- Coherence of the materialized statistics at one key: the stored row
is the one implied by the current award rows. -/
def CohAt (k : AggKey) (s : Store) : Prop :=
  s.stats k = computeAgg (awardsForKey k s.awards)

/- ## Transformer: beneficiary canonical names and pseudonyms
(spec §4.3.3, design §2.4) -/

/-- Folding of common Spanish diacritics, part of name normalization. -/
def foldDiacritic : Char → Char
  | 'á' => 'a'
  | 'é' => 'e'
  | 'í' => 'i'
  | 'ó' => 'o'
  | 'ú' => 'u'
  | 'ü' => 'u'
  | 'Á' => 'a'
  | 'É' => 'e'
  | 'Í' => 'i'
  | 'Ó' => 'o'
  | 'Ú' => 'u'
  | 'Ü' => 'u'
  | c => c

/-- Collapsing of consecutive spaces, part of name normalization. -/
def squeezeSpaces : List Char → List Char
  | [] => []
  | [c] => [c]
  | a :: b :: rest =>
      if a = ' ' ∧ b = ' ' then squeezeSpaces (b :: rest)
      else a :: squeezeSpaces (b :: rest)

/-- Modelled from the spec: name normalization — case-fold,
diacritics-fold, whitespace-collapse (spec §4.3.3, design §2.4
`nombre_norm`). -/
def normalizeName (s : String) : String :=
  String.mk (squeezeSpaces (s.data.map (fun c => foldDiacritic c.toLower)))

/-- The deterministic canonical pick: fold over the remaining observed
names keeping the one whose normalized form is strictly longer. -/
def pickFold (n : String) (rest : List String) : String :=
  rest.foldl (fun best x =>
    if (normalizeName best).length < (normalizeName x).length then x else best) n

/-- Modelled from the spec: among the names observed for one external
identifier, the longest normalized form is the canonical name
(design §2.4 "El nombre mas largo/normalizado se usa como principal");
no observation means no canonical name. -/
def pickCanonical : List String → Option String
  | [] => none
  | n :: rest => some (pickFold n rest)

/-- Modelled from the spec: every other observed name is filed as a
pseudonym (design §2.4 "Los demas se guardan como pseudonimos"). -/
def pseudonymsOf (names : List String) : List String :=
  match pickCanonical names with
  | none => []
  | some c => names.filter (fun n => ¬ n = c)

/-- The pseudonym rows of one identifier. -/
def pseudonimosFor (idp : Nat) (names : List String) : List (Nat × String) :=
  (pseudonymsOf names).map (fun n => (idp, n))

/-- Modelled from the spec: `INSERT pseudonimos ON CONFLICT DO NOTHING`
(design §2.3 step 3) — pseudonyms are appended if new, never deleted. -/
def load_pseudonimos (store newPs : List (Nat × String)) : List (Nat × String) :=
  newPs.foldl (fun st p => if p ∈ st then st else st ++ [p]) store

/- ## Transformer: FK resolution and incidents
(spec §4.3, design §2.3 / §5 "Incidencias") -/

/-- A raw award record: natural key, the critical call reference, an
optional non-critical reference, and the amount. -/
structure RawConcesion where
  naturalKey : String
  convocatoriaRef : String
  regionRef : Option String
  importe : Int
  deriving DecidableEq, Repr

/-- An enriched award record carrying resolved surrogate ids. -/
structure EnrichedConcesion where
  naturalKey : String
  convocatoria_id : Nat
  region_id : Option Nat
  importe : Int
  deriving DecidableEq, Repr

/-- One record of the incident log (spec §6): entity, natural key and
the kind of missing reference. -/
structure Incidencia where
  entidad : String
  naturalKey : String
  missingRef : String
  deriving DecidableEq, Repr

/-- Natural-key lookup in a loaded reference table. -/
def lookupRef (tbl : List (String × Nat)) (k : String) : Option Nat :=
  (tbl.find? (fun p => p.1 = k)).map Prod.snd

/-- Modelled from the spec: resolving one raw award — the critical call
FK must resolve or the record is dropped; the non-critical FK is
null-filled when unresolvable (spec §4.3 step 2). -/
def resolveConcesion (conv reg : List (String × Nat)) (r : RawConcesion) :
    Option EnrichedConcesion :=
  (lookupRef conv r.convocatoriaRef).map (fun cid =>
    { naturalKey := r.naturalKey
      convocatoria_id := cid
      region_id := r.regionRef.bind (lookupRef reg)
      importe := r.importe })

/-- The incident emitted for an award whose call FK is unresolvable. -/
def concesionIncident (r : RawConcesion) : Incidencia :=
  { entidad := "concesion", naturalKey := r.naturalKey
    missingRef := "convocatoria" }

/-- One step of the transform loop: either the record resolves and is
appended to the enriched output, or one incident is appended and the
loop continues with the next record. -/
def transStep (conv reg : List (String × Nat))
    (acc : List EnrichedConcesion × List Incidencia) (r : RawConcesion) :
    List EnrichedConcesion × List Incidencia :=
  match resolveConcesion conv reg r with
  | some e => (acc.1 ++ [e], acc.2)
  | none => (acc.1, acc.2 ++ [concesionIncident r])

/-- Modelled from the spec: `transform_concesiones.py` is not in the
snapshot; design §2.3 steps 4: validate FKs, register incidents for
missing FKs without blocking the load, emit the enriched batch. -/
def transform_concesiones (conv reg : List (String × Nat))
    (raws : List RawConcesion) : List EnrichedConcesion × List Incidencia :=
  raws.foldl (transStep conv reg) ([], [])

/- ## Frontend GraphQL service (graphql.js) and dashboard (App.vue) -/

/-- A request error of the GraphQL client. -/
structure GraphQLError where
  message : String
  deriving DecidableEq, Repr

/-- A row of `estadisticas_por_organo` as queried by the frontend.
Every field the dashboard reads may be absent/null in the response. -/
structure EstadisticaOrgano where
  organo_nombre : Option String
  anio : Int
  numero_concesiones : Option Int
  importe_total : Option ℚ
  deriving DecidableEq, Repr

/-- A row of `estadisticas_por_tipo_entidad`. -/
structure EstadisticaTipoEntidad where
  tipo_entidad : Option String
  anio : Int
  numero_concesiones : Option Int
  importe_total : Option ℚ
  deriving DecidableEq, Repr

/-- A row of the `beneficiarios` query. -/
structure BeneficiarioRow where
  id : Nat
  identificador : String
  nombre : String
  tipo : String
  deriving DecidableEq, Repr

/-- A row of the `concesiones` query (nested objects flattened to the
fields the frontend selects). -/
structure ConcesionRow where
  id : Nat
  codigo_bdns : String
  convocatoria_titulo : Option String
  organo_nombre : Option String
  beneficiario : Option BeneficiarioRow
  fecha_concesion : String
  importe : ℚ
  descripcion_proyecto : String
  tipo_ayuda : String
  anio : Int
  deriving DecidableEq, Repr

/-- A row of the `concentracion_subvenciones` query. -/
structure ConcentracionRow where
  beneficiario_nombre : String
  numero_concesiones : Int
  importe_total : ℚ
  deriving DecidableEq, Repr

/-- The outcome of one `client.request` call: either a request error
(rejected promise) or a response whose selected field may be
null/absent (`data.field` falsy) or hold the row array. -/
def GqlResponse (ρ : Type) : Type :=
  Except GraphQLError (Option (List ρ))

/-- Function `fetchEstadisticasPorOrgano` of graphql.js: `data.estadisticas_por_organo
|| []` inside try/catch returning `[]` on error. -/
def fetchEstadisticasPorOrgano (resp : GqlResponse EstadisticaOrgano) :
    List EstadisticaOrgano :=
  match resp with
  | .ok (some rows) => rows
  | .ok none => []
  | .error _ => []

/-- Function `fetchEstadisticasPorTipoEntidad` of graphql.js. -/
def fetchEstadisticasPorTipoEntidad (resp : GqlResponse EstadisticaTipoEntidad) :
    List EstadisticaTipoEntidad :=
  match resp with
  | .ok (some rows) => rows
  | .ok none => []
  | .error _ => []

/-- Function `fetchConcesiones` of graphql.js; the filter/limit/offset variables
shape the request, not the error envelope. -/
def fetchConcesiones (filtros : List (String × String)) (limite offset : Int)
    (resp : GqlResponse ConcesionRow) : List ConcesionRow :=
  match filtros, limite, offset, resp with
  | _, _, _, .ok (some rows) => rows
  | _, _, _, .ok none => []
  | _, _, _, .error _ => []

/-- Function `fetchBeneficiarios` of graphql.js. -/
def fetchBeneficiarios (filtros : List (String × String)) (limite offset : Int)
    (resp : GqlResponse BeneficiarioRow) : List BeneficiarioRow :=
  match filtros, limite, offset, resp with
  | _, _, _, .ok (some rows) => rows
  | _, _, _, .ok none => []
  | _, _, _, .error _ => []

/-- Function `fetchConcentracion` of graphql.js. -/
def fetchConcentracion (anio : Option Int) (tipo_entidad : Option String)
    (limite : Int) (resp : GqlResponse ConcentracionRow) : List ConcentracionRow :=
  match anio, tipo_entidad, limite, resp with
  | _, _, _, .ok (some rows) => rows
  | _, _, _, .ok none => []
  | _, _, _, .error _ => []

/-- The dashboard stats object of App.vue. -/
structure DashboardStats where
  totalConcesiones : Int
  totalImporte : ℚ
  regiones : Nat
  beneficiarios : Int
  deriving DecidableEq, Repr

/-- One iteration of the `data.forEach` accumulation in `onMounted`:
`totalConcesiones += item.numero_concesiones || 0`,
`totalImporte += item.importe_total || 0`, and the region set gains
`item.organo_nombre` when truthy (non-null and non-empty). -/
def statsStep (acc : Int × ℚ × List String) (item : EstadisticaOrgano) :
    Int × ℚ × List String :=
  ( acc.1 + item.numero_concesiones.getD 0,
    acc.2.1 + item.importe_total.getD 0,
    match item.organo_nombre with
    | some s => if ¬ s = "" ∧ s ∉ acc.2.2 then acc.2.2 ++ [s] else acc.2.2
    | none => acc.2.2 )

/-- The `onMounted` statistics computation of App.vue:
exact sums for concessions and amount, region count as the size of the
set of authority names, and `beneficiarios :=
Math.floor(totalConcesiones * 0.8)` — an estimate, not a count from
beneficiary data. -/
def computeDashboardStats (data : List EstadisticaOrgano) : DashboardStats :=
  let acc := data.foldl statsStep (0, 0, [])
  { totalConcesiones := acc.1
    totalImporte := acc.2.1
    regiones := acc.2.2.length
    beneficiarios := ⌊(acc.1 : ℚ) * (0.8 : ℚ)⌋ }

/-- The ledger invariant: `retries` never exceeds the maximum, claimable
or active units still have retry budget, and an `error` unit has
exhausted it exactly. -/
def JobInv (maxRetries : Nat) (u : JobUnit) : Prop :=
  u.retries ≤ maxRetries ∧
  ((u.status = .pending ∨ u.status = .running) → u.retries < maxRetries) ∧
  (u.status = .error → u.retries = maxRetries)

/- ## Theorems -/

/-- C1: the claim asserts that the `UNIQUE (entity, year, mes, tipo, stage)`
constraint makes equal identities collide even when `mes`/`tipo` are NULL,
so that at most one `running` row exists per scope/stage.  Evaluating the
constraint at the failing input: a second `concesion` year-scope row with
NULL `mes` and `tipo`, identical identity and status `running`, is accepted
alongside the first (PostgreSQL treats NULLs as distinct in a unique
index), so the table holds two `running` rows of the same identity; with
both optional columns non-NULL the duplicate is rejected as the claim
expects. -/
theorem etl_job_unique_ignores_null_scopes :
    rowIdentity concesionRunningRow = rowIdentity concesionRunningRow ∧
    concesionRunningRow.status = "running" ∧
    insertAccepted [concesionRunningRow] concesionRunningRow = true ∧
    tableAccepted [concesionRunningRow, concesionRunningRow] = true ∧
    insertAccepted [convocatoriaRunningRow] convocatoriaRunningRow = false := by
  refine ⟨rfl, rfl, ?_, ?_, ?_⟩ <;> decide

/-- C2: `detect_changes` returns exactly `added = ids(api) \ ids(local)`,
`removed = ids(local) \ ids(api)` and `modified` = the intersection ids
whose hashes differ; the three sets are pairwise disjoint and the
intersection ids with equal hashes are in none of the three; and on
local {A,B,C} = {1,2,3}, api {A,B',D} = {1,2,4} with hash of 2 changed,
the result is added = {4}, modified = {2}, removed = {3}. -/
theorem detect_changes_correct :
    (∀ api loc : List (Nat × Nat),
      (∀ i, i ∈ (detect_changes api loc).nuevas ↔ i ∈ idsOf api ∧ i ∉ idsOf loc) ∧
      (∀ i, i ∈ (detect_changes api loc).eliminadas ↔ i ∈ idsOf loc ∧ i ∉ idsOf api) ∧
      (∀ i, i ∈ (detect_changes api loc).modificadas ↔
          i ∈ idsOf api ∧ i ∈ idsOf loc ∧ hashOf api i ≠ hashOf loc i) ∧
      (detect_changes api loc).nuevas ∩ (detect_changes api loc).eliminadas = ∅ ∧
      (detect_changes api loc).nuevas ∩ (detect_changes api loc).modificadas = ∅ ∧
      (detect_changes api loc).eliminadas ∩ (detect_changes api loc).modificadas = ∅ ∧
      ((idsOf api ∩ idsOf loc).filter (fun i => hashOf api i = hashOf loc i)) ∩
        ((detect_changes api loc).nuevas ∪ (detect_changes api loc).eliminadas ∪
          (detect_changes api loc).modificadas) = ∅) ∧
    detect_changes [(1, 10), (2, 21), (4, 40)] [(1, 10), (2, 20), (3, 30)] =
      { nuevas := {4}, modificadas := {2}, eliminadas := {3} } := by
  constructor
  · intro api loc
    refine ⟨fun i => ?_, fun i => ?_, fun i => ?_, ?_, ?_, ?_, ?_⟩
    · simp [detect_changes, Finset.mem_sdiff]
    · simp [detect_changes, Finset.mem_sdiff]
    · simp [detect_changes, Finset.mem_filter, Finset.mem_inter, and_assoc]
    · ext i
      simp only [detect_changes, Finset.mem_inter, Finset.mem_sdiff,
        Finset.not_mem_empty, iff_false]
      rintro ⟨⟨h1, h2⟩, h3, -⟩
      exact h2 h3
    · ext i
      simp only [detect_changes, Finset.mem_inter, Finset.mem_sdiff,
        Finset.mem_filter, Finset.not_mem_empty, iff_false]
      rintro ⟨⟨-, h2⟩, ⟨-, h3⟩, -⟩
      exact h2 h3
    · ext i
      simp only [detect_changes, Finset.mem_inter, Finset.mem_sdiff,
        Finset.mem_filter, Finset.not_mem_empty, iff_false]
      rintro ⟨⟨-, h2⟩, ⟨⟨h3, -⟩, -⟩⟩
      exact h2 h3
    · ext i
      simp only [detect_changes, Finset.mem_inter, Finset.mem_filter,
        Finset.mem_union, Finset.mem_sdiff, Finset.not_mem_empty, iff_false]
      rintro ⟨⟨⟨hApi, hLoc⟩, hEq⟩, hBad⟩
      rcases hBad with (⟨-, h⟩ | ⟨-, h⟩) | ⟨⟨-, -⟩, h⟩
      · exact h hLoc
      · exact h hApi
      · exact h hEq
  · decide

lemma jobInv_init (maxRetries : Nat) (hmax : 0 < maxRetries) :
    JobInv maxRetries initJobUnit := by
  refine ⟨Nat.zero_le _, fun _ => hmax, fun h => ?_⟩
  simp [initJobUnit] at h

lemma jobInv_step (maxRetries : Nat) (op : LedgerOp) (u : JobUnit)
    (h : JobInv maxRetries u) : JobInv maxRetries (stepJob maxRetries op u) := by
  obtain ⟨hle, hact, herr⟩ := h
  cases op with
  | claimOp =>
      by_cases hp : u.status = .pending
      · refine ⟨?_, fun _ => ?_, fun hc => ?_⟩
        · simpa [stepJob, hp] using hle
        · simpa [stepJob, hp] using hact (Or.inl hp)
        · simp [stepJob, hp] at hc
      · simpa [stepJob, hp] using ⟨hle, hact, herr⟩
  | completeOp =>
      by_cases hr : u.status = .running
      · refine ⟨?_, fun hc => ?_, fun hc => ?_⟩
        · simpa [stepJob, hr] using hle
        · simp [stepJob, hr] at hc
        · simp [stepJob, hr] at hc
      · simpa [stepJob, hr] using ⟨hle, hact, herr⟩
  | failOp reason =>
      by_cases hr : u.status = .running
      · have hlt : u.retries < maxRetries := hact (Or.inr hr)
        by_cases hnext : u.retries + 1 < maxRetries
        · refine ⟨?_, fun _ => ?_, fun hc => ?_⟩
          · simpa [stepJob, hr] using Nat.le_of_lt hnext
          · simpa [stepJob, hr] using hnext
          · simp [stepJob, hr, hnext] at hc
        · refine ⟨?_, fun hc => ?_, fun _ => ?_⟩
          · simpa [stepJob, hr] using hlt
          · rcases hc with hc | hc <;> simp [stepJob, hr, hnext] at hc
          · simpa [stepJob, hr] using Nat.le_antisymm hlt (Nat.not_lt.mp hnext)
      · simpa [stepJob, hr] using ⟨hle, hact, herr⟩

lemma jobInv_run (maxRetries : Nat) (ops : List LedgerOp) (u : JobUnit)
    (h : JobInv maxRetries u) : JobInv maxRetries (runJob maxRetries ops u) := by
  induction ops generalizing u with
  | nil => exact h
  | cons op rest ih => exact ih _ (jobInv_step maxRetries op u h)

/-- C6: starting from a freshly scheduled unit, any sequence of
claim/complete/fail operations keeps `retries` at or below the configured
maximum; `fail` moves a `running` unit with `retries + 1` incremented,
landing on `pending` exactly while the incremented count is below the
maximum and on `error` otherwise; a unit reaching `error` has exhausted
the budget exactly and no further pipeline operation changes it. -/
theorem job_retries_never_exceed_max (maxRetries : Nat) (ops : List LedgerOp)
    (hmax : 0 < maxRetries) :
    (runJob maxRetries ops initJobUnit).retries ≤ maxRetries ∧
    ((runJob maxRetries ops initJobUnit).status = .error →
      (runJob maxRetries ops initJobUnit).retries = maxRetries) ∧
    (∀ u : JobUnit, u.status = .error → ∀ op, stepJob maxRetries op u = u) ∧
    (∀ u : JobUnit, ∀ reason, u.status = .running →
      (stepJob maxRetries (.failOp reason) u).retries = u.retries + 1 ∧
      ((stepJob maxRetries (.failOp reason) u).status = .pending ↔
        u.retries + 1 < maxRetries) ∧
      ((stepJob maxRetries (.failOp reason) u).status = .error ↔
        ¬ u.retries + 1 < maxRetries)) := by
  have hinv := jobInv_run maxRetries ops initJobUnit (jobInv_init maxRetries hmax)
  refine ⟨hinv.1, hinv.2.2, ?_, ?_⟩
  · intro u hu op
    cases op <;> simp [stepJob, hu]
  · intro u reason hr
    by_cases hnext : u.retries + 1 < maxRetries <;>
      simp [stepJob, hr, hnext]

lemma filter_map_congr {α : Type} (p : α → Bool) (f : α → α) (l : List α)
    (h : ∀ a ∈ l, (p a = false ∧ p (f a) = false) ∨ f a = a) :
    (l.map f).filter p = l.filter p := by
  induction l with
  | nil => rfl
  | cons x xs ih =>
      have ihh := ih (fun a ha => h a (List.mem_cons_of_mem x ha))
      rcases h x (List.mem_cons_self x xs) with ⟨h1, h2⟩ | hfx
      · simp [List.filter_cons, h1, h2, ihh]
      · rw [List.map_cons, hfx]
        by_cases hp : p x = true <;> simp [List.filter_cons, hp, ihh]

lemma filter_sub_congr {α : Type} (p q : α → Bool) (l : List α)
    (h : ∀ a ∈ l, p a = true → q a = true) :
    (l.filter q).filter p = l.filter p := by
  induction l with
  | nil => rfl
  | cons x xs ih =>
      have ihh := ih (fun a ha => h a (List.mem_cons_of_mem x ha))
      by_cases hq : q x = true
      · by_cases hp : p x = true <;> simp [List.filter_cons, hq, hp, ihh]
      · have hp : p x = false := by
          rcases Bool.eq_false_or_eq_true (p x) with hp | hp
          · exact absurd (h x (List.mem_cons_self x xs) hp) hq
          · exact hp
        simp [List.filter_cons, hq, hp, ihh]

lemma awardsForKey_cons_ne (k : AggKey) (r : Award) (l : List Award)
    (h : keyOf r ≠ k) :
    awardsForKey k (r :: l) = awardsForKey k l := by
  simp [awardsForKey, List.filter_cons, h]

lemma cohAt_insert (k : AggKey) (r : Award) (s : Store)
    (h : CohAt k s) : CohAt k (insertAward r s) := by
  unfold insertAward
  by_cases hp : (s.awards.any (fun a => a.id = r.id)) = true
  · simpa [hp] using h
  · by_cases hk : k = keyOf r
    · simp [hp, CohAt, refreshStats, hk]
    · have hne : keyOf r ≠ k := fun hh => hk hh.symm
      simp only [hp, if_false, Bool.false_eq_true]
      show refreshStats [keyOf r] (r :: s.awards) s.stats k =
        computeAgg (awardsForKey k (r :: s.awards))
      rw [awardsForKey_cons_ne k r s.awards hne]
      simpa [refreshStats, fun hh => hk hh] using h

lemma cohAt_update (k : AggKey) (r : Award) (s : Store)
    (h : CohAt k s) : CohAt k (updateAward r s) := by
  unfold updateAward
  by_cases hm : ((s.awards.filter (fun a => a.id = r.id)).isEmpty) = true
  · simpa [hm] using h
  · simp only [hm, if_false, Bool.false_eq_true]
    by_cases hk : k ∈ keyOf r :: (s.awards.filter (fun a => a.id = r.id)).map keyOf
    · show refreshStats _ _ s.stats k = computeAgg (awardsForKey k _)
      simp [refreshStats, hk]
    · have hkr : k ≠ keyOf r := by
        intro hh
        exact hk (hh ▸ List.mem_cons_self _ _)
      have hids : ∀ a ∈ s.awards, a.id = r.id → keyOf a ≠ k := by
        intro a ha hid hkey
        refine hk (List.mem_cons_of_mem _ ?_)
        refine hkey ▸ List.mem_map_of_mem keyOf ?_
        simp [List.mem_filter, ha, hid]
      have hfilter : awardsForKey k
          (s.awards.map (fun a => if a.id = r.id then r else a)) =
          awardsForKey k s.awards := by
        refine filter_map_congr _ _ _ (fun a ha => ?_)
        by_cases hid : a.id = r.id
        · refine Or.inl ⟨?_, ?_⟩
          · simpa using hids a ha hid
          · simpa [hid] using fun hh => hkr hh.symm
        · exact Or.inr (by simp [hid])
      show refreshStats _ _ s.stats k = computeAgg (awardsForKey k _)
      rw [hfilter]
      simpa [refreshStats, hk] using h

lemma cohAt_delete (k : AggKey) (i : Nat) (s : Store)
    (h : CohAt k s) : CohAt k (deleteAward i s) := by
  unfold deleteAward
  by_cases hm : ((s.awards.filter (fun a => a.id = i)).isEmpty) = true
  · simpa [hm] using h
  · simp only [hm, if_false, Bool.false_eq_true]
    by_cases hk : k ∈ (s.awards.filter (fun a => a.id = i)).map keyOf
    · show refreshStats _ _ s.stats k = computeAgg (awardsForKey k _)
      simp [refreshStats, hk]
    · have hids : ∀ a ∈ s.awards, keyOf a = k → a.id ≠ i := by
        intro a ha hkey hid
        refine hk (hkey ▸ List.mem_map_of_mem keyOf ?_)
        simp [List.mem_filter, ha, hid]
      have hfilter : awardsForKey k (s.awards.filter (fun a => ¬ a.id = i)) =
          awardsForKey k s.awards := by
        refine filter_sub_congr _ _ _ (fun a ha hp => ?_)
        have hkey : keyOf a = k := by simpa [awardsForKey] using hp
        simpa using hids a ha hkey
      show refreshStats _ _ s.stats k = computeAgg (awardsForKey k _)
      rw [hfilter]
      simpa [refreshStats, hk] using h

lemma cohAt_stepAward (k : AggKey) (op : AwardOp) (s : Store)
    (h : CohAt k s) : CohAt k (stepAward op s) := by
  cases op with
  | ins r => exact cohAt_insert k r s h
  | upd r => exact cohAt_update k r s h
  | del i => exact cohAt_delete k i s h

lemma cohAt_runAwardOps (k : AggKey) (ops : List AwardOp) (s : Store)
    (h : CohAt k s) : CohAt k (runAwardOps ops s) := by
  induction ops generalizing s with
  | nil => exact h
  | cons op rest ih => exact ih _ (cohAt_stepAward k op s h)

/-- C3: after any sequence of award inserts, updates and deletes
processed through the incremental trigger hook starting from the empty
store, the maintained `beneficiario_estadisticas_anuales` table equals,
at every (beneficiary, year, authority) key, the full recomputation
from the current award rows. -/
theorem incremental_stats_equal_rebuild (ops : List AwardOp) :
    (runAwardOps ops initStore).stats =
      rebuildAll (runAwardOps ops initStore).awards := by
  funext k
  exact cohAt_runAwardOps k ops initStore rfl

lemma list_map_fixed {α : Type} (f : α → α) (l : List α)
    (h : ∀ a ∈ l, f a = a) : l.map f = l := by
  induction l with
  | nil => rfl
  | cons x xs ih =>
      rw [List.map_cons, h x (List.mem_cons_self x xs),
        ih (fun a ha => h a (List.mem_cons_of_mem x ha))]

lemma list_foldl_fixed {α β : Type} (f : β → α → β) (s : β) (l : List α)
    (h : ∀ x ∈ l, f s x = s) : l.foldl f s = s := by
  induction l with
  | nil => rfl
  | cons x xs ih =>
      rw [List.foldl_cons, h x (List.mem_cons_self x xs)]
      exact ih (fun y hy => h y (List.mem_cons_of_mem x hy))

lemma isEmpty_filter_iff {α : Type} (p : α → Bool) (l : List α) :
    ((l.filter p).isEmpty = true) ↔ ∀ a ∈ l, ¬ p a = true := by
  rw [List.isEmpty_iff, List.filter_eq_nil_iff]

lemma matched_isEmpty_iff (s : Store) (i : Nat) :
    ((s.awards.filter fun a => a.id = i).isEmpty = true) ↔ ¬ hasId s i := by
  rw [isEmpty_filter_iff]
  simp [hasId]

lemma hasId_iff_any (s : Store) (i : Nat) :
    hasId s i ↔ (s.awards.any fun a => a.id = i) = true := by
  simp [hasId, List.any_eq_true]

lemma update_keeps_id (r b : Award) :
    (if b.id = r.id then r else b).id = b.id := by
  by_cases hid : b.id = r.id <;> simp [hid]

lemma foldIns_cons (x : Award) (xs : List Award) (s : Store) :
    foldIns (x :: xs) s = foldIns xs (insertAward x s) := rfl

lemma foldUpd_cons (x : Award) (xs : List Award) (s : Store) :
    foldUpd (x :: xs) s = foldUpd xs (updateAward x s) := rfl

lemma foldDel_cons (x : Nat) (xs : List Nat) (s : Store) :
    foldDel (x :: xs) s = foldDel xs (deleteAward x s) := rfl

lemma foldUpd_append (l1 l2 : List Award) (s : Store) :
    foldUpd (l1 ++ l2) s = foldUpd l2 (foldUpd l1 s) := by
  unfold foldUpd
  exact List.foldl_append _ _ l1 l2

lemma hasId_insertAward_self (r : Award) (s : Store) :
    hasId (insertAward r s) r.id := by
  unfold insertAward
  by_cases hp : (s.awards.any (fun a => a.id = r.id)) = true
  · rw [if_pos hp]
    exact (hasId_iff_any s r.id).mpr hp
  · rw [if_neg hp]
    exact ⟨r, List.mem_cons_self _ _, rfl⟩

lemma hasId_insertAward_mono (r : Award) (s : Store) (i : Nat)
    (h : hasId s i) : hasId (insertAward r s) i := by
  unfold insertAward
  by_cases hp : (s.awards.any (fun a => a.id = r.id)) = true
  · rwa [if_pos hp]
  · rw [if_neg hp]
    obtain ⟨a, ha, hid⟩ := h
    exact ⟨a, List.mem_cons_of_mem r ha, hid⟩

lemma hasId_updateAward_iff (r : Award) (s : Store) (i : Nat) :
    hasId (updateAward r s) i ↔ hasId s i := by
  unfold updateAward
  by_cases hm : ((s.awards.filter fun a => a.id = r.id).isEmpty) = true
  · rw [if_pos hm]
  · rw [if_neg hm]
    constructor
    · rintro ⟨a, ha, hid⟩
      rcases List.mem_map.mp ha with ⟨b, hb, rfl⟩
      rw [update_keeps_id r b] at hid
      exact ⟨b, hb, hid⟩
    · rintro ⟨b, hb, hid⟩
      refine ⟨_, List.mem_map_of_mem _ hb, ?_⟩
      rw [update_keeps_id r b]
      exact hid

lemma mem_deleteAward_sub (j : Nat) (s : Store) (a : Award)
    (h : a ∈ (deleteAward j s).awards) : a ∈ s.awards := by
  unfold deleteAward at h
  by_cases hm : ((s.awards.filter fun x => x.id = j).isEmpty) = true
  · rwa [if_pos hm] at h
  · rw [if_neg hm] at h
    exact List.mem_of_mem_filter h

lemma not_hasId_deleteAward_self (j : Nat) (s : Store) :
    ¬ hasId (deleteAward j s) j := by
  unfold deleteAward
  by_cases hm : ((s.awards.filter fun a => a.id = j).isEmpty) = true
  · rw [if_pos hm]
    exact (matched_isEmpty_iff s j).mp hm
  · rw [if_neg hm]
    rintro ⟨a, ha, hid⟩
    have hmem := List.mem_filter.mp ha
    simp [hid] at hmem

lemma not_hasId_deleteAward_mono (j i : Nat) (s : Store)
    (h : ¬ hasId s i) : ¬ hasId (deleteAward j s) i := by
  rintro ⟨a, ha, hid⟩
  exact h ⟨a, mem_deleteAward_sub j s a ha, hid⟩

lemma hasId_deleteAward_iff (j i : Nat) (hne : j ≠ i) (s : Store) :
    hasId (deleteAward j s) i ↔ hasId s i := by
  unfold deleteAward
  by_cases hm : ((s.awards.filter fun a => a.id = j).isEmpty) = true
  · rw [if_pos hm]
  · rw [if_neg hm]
    constructor
    · rintro ⟨a, ha, hid⟩
      exact ⟨a, List.mem_of_mem_filter ha, hid⟩
    · rintro ⟨a, ha, hid⟩
      refine ⟨a, List.mem_filter.mpr ⟨ha, ?_⟩, hid⟩
      simp [hid]
      exact Ne.symm hne

lemma hasId_foldIns_mono (l : List Award) (i : Nat) :
    ∀ s : Store, hasId s i → hasId (foldIns l s) i := by
  induction l with
  | nil => exact fun s h => h
  | cons x xs ih =>
      intro s h
      rw [foldIns_cons]
      exact ih _ (hasId_insertAward_mono x s i h)

lemma hasId_foldIns_mem (l : List Award) (r : Award) (hr : r ∈ l) :
    ∀ s : Store, hasId (foldIns l s) r.id := by
  induction l with
  | nil => cases hr
  | cons x xs ih =>
      intro s
      rw [foldIns_cons]
      rcases List.mem_cons.mp hr with rfl | hmem
      · exact hasId_foldIns_mono xs r.id _ (hasId_insertAward_self r s)
      · exact ih hmem _

lemma hasId_foldUpd_iff (l : List Award) (i : Nat) :
    ∀ s : Store, hasId (foldUpd l s) i ↔ hasId s i := by
  induction l with
  | nil => exact fun s => Iff.rfl
  | cons x xs ih =>
      intro s
      rw [foldUpd_cons]
      exact (ih _).trans (hasId_updateAward_iff x s i)

lemma hasId_foldDel_iff (l : List Nat) (i : Nat) (hi : i ∉ l) :
    ∀ s : Store, hasId (foldDel l s) i ↔ hasId s i := by
  induction l with
  | nil => exact fun s => Iff.rfl
  | cons x xs ih =>
      intro s
      rw [foldDel_cons]
      have hx : x ≠ i := fun hh => hi (hh ▸ List.mem_cons_self x xs)
      have hxs : i ∉ xs := fun hh => hi (List.mem_cons_of_mem x hh)
      exact (ih hxs _).trans (hasId_deleteAward_iff x i hx s)

lemma not_hasId_foldDel_mono (l : List Nat) (i : Nat) :
    ∀ s : Store, ¬ hasId s i → ¬ hasId (foldDel l s) i := by
  induction l with
  | nil => exact fun s h => h
  | cons x xs ih =>
      intro s h
      rw [foldDel_cons]
      exact ih _ (not_hasId_deleteAward_mono x i s h)

lemma not_hasId_foldDel_mem (l : List Nat) (i : Nat) (hi : i ∈ l) :
    ∀ s : Store, ¬ hasId (foldDel l s) i := by
  induction l with
  | nil => cases hi
  | cons x xs ih =>
      intro s
      rw [foldDel_cons]
      rcases List.mem_cons.mp hi with rfl | hmem
      · exact not_hasId_foldDel_mono xs i _ (not_hasId_deleteAward_self i s)
      · exact ih hmem _

lemma mem_foldDel_sub (l : List Nat) (a : Award) :
    ∀ s : Store, a ∈ (foldDel l s).awards → a ∈ s.awards := by
  induction l with
  | nil => exact fun s h => h
  | cons x xs ih =>
      intro s h
      rw [foldDel_cons] at h
      exact mem_deleteAward_sub x s a (ih _ h)

lemma updateAward_content_self (r : Award) (s : Store) :
    ∀ a ∈ (updateAward r s).awards, a.id = r.id → a = r := by
  intro a ha hid
  unfold updateAward at ha
  by_cases hm : ((s.awards.filter fun x => x.id = r.id).isEmpty) = true
  · rw [if_pos hm] at ha
    exact absurd ⟨a, ha, hid⟩ ((matched_isEmpty_iff s r.id).mp hm)
  · rw [if_neg hm] at ha
    rcases List.mem_map.mp ha with ⟨b, hb, rfl⟩
    by_cases hidb : b.id = r.id
    · rw [if_pos hidb]
    · rw [if_neg hidb] at hid ⊢
      exact absurd hid hidb

lemma updateAward_content_pres (x r : Award) (i : Nat) (s : Store)
    (hx : ¬ x.id = i)
    (h : ∀ a ∈ s.awards, a.id = i → a = r) :
    ∀ a ∈ (updateAward x s).awards, a.id = i → a = r := by
  intro a ha hid
  unfold updateAward at ha
  by_cases hm : ((s.awards.filter fun y => y.id = x.id).isEmpty) = true
  · rw [if_pos hm] at ha
    exact h a ha hid
  · rw [if_neg hm] at ha
    rcases List.mem_map.mp ha with ⟨b, hb, rfl⟩
    by_cases hidb : b.id = x.id
    · rw [if_pos hidb] at hid ⊢
      exact absurd hid hx
    · rw [if_neg hidb] at hid ⊢
      exact h b hb hid

lemma foldUpd_content_pres (l : List Award) (r : Award) (i : Nat)
    (hl : ∀ x ∈ l, ¬ x.id = i) :
    ∀ s : Store, (∀ a ∈ s.awards, a.id = i → a = r) →
      ∀ a ∈ (foldUpd l s).awards, a.id = i → a = r := by
  induction l with
  | nil => exact fun s h => h
  | cons x xs ih =>
      intro s h
      rw [foldUpd_cons]
      exact ih (fun y hy => hl y (List.mem_cons_of_mem x hy)) _
        (updateAward_content_pres x r i s (hl x (List.mem_cons_self x xs)) h)

lemma foldUpd_content (l : List Award) (r : Award)
    (hnd : (l.map (·.id)).Nodup) (hr : r ∈ l) :
    ∀ s : Store, ∀ a ∈ (foldUpd l s).awards, a.id = r.id → a = r := by
  induction l with
  | nil => cases hr
  | cons x xs ih =>
      intro s
      rw [foldUpd_cons]
      have hnd2 : (∀ y ∈ xs, ¬ y.id = x.id) ∧ (xs.map (·.id)).Nodup := by
        simpa using hnd
      rcases List.mem_cons.mp hr with rfl | hmem
      · exact foldUpd_content_pres xs r r.id hnd2.1 _
          (updateAward_content_self r s)
      · exact ih hnd2.2 hmem _

lemma foldDel_content_pres (l : List Nat) (r : Award) (i : Nat)
    (s : Store) (h : ∀ a ∈ s.awards, a.id = i → a = r) :
    ∀ a ∈ (foldDel l s).awards, a.id = i → a = r :=
  fun a ha hid => h a (mem_foldDel_sub l a s ha) hid

lemma cohAt_foldUpd (k : AggKey) (l : List Award) :
    ∀ s : Store, CohAt k s → CohAt k (foldUpd l s) := by
  induction l with
  | nil => exact fun s h => h
  | cons x xs ih =>
      intro s h
      rw [foldUpd_cons]
      exact ih _ (cohAt_update k x s h)

lemma cohAt_foldDel (k : AggKey) (l : List Nat) :
    ∀ s : Store, CohAt k s → CohAt k (foldDel l s) := by
  induction l with
  | nil => exact fun s h => h
  | cons x xs ih =>
      intro s h
      rw [foldDel_cons]
      exact ih _ (cohAt_delete k x s h)

lemma updateAward_fires_coh (r : Award) (s : Store) (h : hasId s r.id) :
    CohAt (keyOf r) (updateAward r s) := by
  unfold updateAward
  have hm : ¬ ((s.awards.filter fun a => a.id = r.id).isEmpty = true) :=
    fun he => (matched_isEmpty_iff s r.id).mp he h
  rw [if_neg hm]
  show refreshStats _ _ s.stats (keyOf r) = computeAgg (awardsForKey (keyOf r) _)
  unfold refreshStats
  rw [if_pos (List.mem_cons_self _ _)]

lemma insertAward_of_hasId (r : Award) (s : Store) (h : hasId s r.id) :
    insertAward r s = s := by
  unfold insertAward
  rw [if_pos ((hasId_iff_any s r.id).mp h)]

lemma updateAward_of_not_hasId (r : Award) (s : Store) (h : ¬ hasId s r.id) :
    updateAward r s = s := by
  unfold updateAward
  rw [if_pos ((matched_isEmpty_iff s r.id).mpr h)]

lemma deleteAward_of_not_hasId (i : Nat) (s : Store) (h : ¬ hasId s i) :
    deleteAward i s = s := by
  unfold deleteAward
  rw [if_pos ((matched_isEmpty_iff s i).mpr h)]

lemma updateAward_fixed (r : Award) (s : Store) (h1 : hasId s r.id)
    (h2 : ∀ a ∈ s.awards, a.id = r.id → a = r)
    (h3 : CohAt (keyOf r) s) : updateAward r s = s := by
  have hm : ¬ ((s.awards.filter fun a => a.id = r.id).isEmpty = true) :=
    fun he => (matched_isEmpty_iff s r.id).mp he h1
  have hmap : s.awards.map (fun a => if a.id = r.id then r else a) = s.awards := by
    refine list_map_fixed _ _ (fun a ha => ?_)
    by_cases hid : a.id = r.id
    · rw [if_pos hid, h2 a ha hid]
    · rw [if_neg hid]
  have hkeys : ∀ k ∈ keyOf r :: (s.awards.filter fun a => a.id = r.id).map keyOf,
      k = keyOf r := by
    intro k hk
    rcases List.mem_cons.mp hk with rfl | hk2
    · rfl
    · rcases List.mem_map.mp hk2 with ⟨a, ha, rfl⟩
      have hmem := List.mem_filter.mp ha
      have hid : a.id = r.id := by simpa using hmem.2
      rw [h2 a hmem.1 hid]
  have hstats : refreshStats
      (keyOf r :: (s.awards.filter fun a => a.id = r.id).map keyOf)
      s.awards s.stats = s.stats := by
    funext k
    unfold refreshStats
    by_cases hk : k ∈ keyOf r :: (s.awards.filter fun a => a.id = r.id).map keyOf
    · rw [if_pos hk, hkeys k hk]
      exact h3.symm
    · rw [if_neg hk]
  unfold updateAward
  rw [if_neg hm]
  show ({ awards := s.awards.map (fun a => if a.id = r.id then r else a)
          stats := refreshStats
            (keyOf r :: (s.awards.filter fun a => a.id = r.id).map keyOf)
            (s.awards.map (fun a => if a.id = r.id then r else a))
            s.stats } : Store) = s
  rw [hmap, hstats]

lemma apply_presence_added (s : Store) (c : SyncChangeset)
    (h1 : ∀ r ∈ c.nuevasRecs, r.id ∉ c.eliminadasIds) :
    ∀ r ∈ c.nuevasRecs, hasId (apply_changes c s) r.id := by
  intro r hr
  unfold apply_changes
  refine (hasId_foldDel_iff c.eliminadasIds r.id (h1 r hr) _).mpr ?_
  refine (hasId_foldUpd_iff c.modificadasRecs r.id _).mpr ?_
  exact hasId_foldIns_mem c.nuevasRecs r hr s

lemma apply_absence_removed (s : Store) (c : SyncChangeset) :
    ∀ i ∈ c.eliminadasIds, ¬ hasId (apply_changes c s) i := by
  intro i hi
  unfold apply_changes
  exact not_hasId_foldDel_mem c.eliminadasIds i hi _

lemma apply_content_modified (s : Store) (c : SyncChangeset)
    (h2 : (c.modificadasRecs.map (·.id)).Nodup) :
    ∀ r ∈ c.modificadasRecs,
      ∀ a ∈ (apply_changes c s).awards, a.id = r.id → a = r := by
  intro r hr a ha hid
  unfold apply_changes at ha
  have ha2 := mem_foldDel_sub c.eliminadasIds a _ ha
  exact foldUpd_content c.modificadasRecs r h2 hr _ a ha2 hid

lemma apply_coh_modified (s : Store) (c : SyncChangeset) :
    ∀ r ∈ c.modificadasRecs, hasId (apply_changes c s) r.id →
      CohAt (keyOf r) (apply_changes c s) := by
  intro r hr hpres
  obtain ⟨pre, post, hsplit⟩ := List.append_of_mem hr
  have hnotdel : r.id ∉ c.eliminadasIds := by
    intro hdel
    exact not_hasId_foldDel_mem c.eliminadasIds r.id hdel
      (foldUpd c.modificadasRecs (foldIns c.nuevasRecs s)) hpres
  have hpres2 : hasId (foldUpd c.modificadasRecs (foldIns c.nuevasRecs s)) r.id :=
    (hasId_foldDel_iff c.eliminadasIds r.id hnotdel _).mp hpres
  have hpres3 : hasId (foldUpd pre (foldIns c.nuevasRecs s)) r.id := by
    rw [hsplit, foldUpd_append, foldUpd_cons] at hpres2
    exact (hasId_updateAward_iff r _ r.id).mp
      ((hasId_foldUpd_iff post r.id _).mp hpres2)
  have hcoh : CohAt (keyOf r) (updateAward r (foldUpd pre (foldIns c.nuevasRecs s))) :=
    updateAward_fires_coh r _ hpres3
  unfold apply_changes
  rw [hsplit, foldUpd_append, foldUpd_cons]
  exact cohAt_foldDel (keyOf r) c.eliminadasIds _
    (cohAt_foldUpd (keyOf r) post _ hcoh)

/-- C5: applying a persisted changeset twice yields the same store state,
aggregates included, as applying it once: re-applying an already-applied
changeset is a no-op on its insert, update-in-place and delete parts.
The hypotheses state that the changeset's identifier sets are as the
Reconciler produces them: the added and removed sets are disjoint, and
the modified records carry pairwise distinct identifiers. -/
theorem apply_changes_idempotent (s : Store) (c : SyncChangeset)
    (h1 : ∀ r ∈ c.nuevasRecs, r.id ∉ c.eliminadasIds)
    (h2 : (c.modificadasRecs.map (·.id)).Nodup) :
    apply_changes c (apply_changes c s) = apply_changes c s := by
  have hF1 := apply_presence_added s c h1
  have hF3 := apply_absence_removed s c
  have hF2a := apply_content_modified s c h2
  have hF2b := apply_coh_modified s c
  have hI : foldIns c.nuevasRecs (apply_changes c s) = apply_changes c s := by
    unfold foldIns
    exact list_foldl_fixed _ _ _
      (fun r hr => insertAward_of_hasId r _ (hF1 r hr))
  have hU : foldUpd c.modificadasRecs (apply_changes c s) = apply_changes c s := by
    unfold foldUpd
    refine list_foldl_fixed _ _ _ (fun r hr => ?_)
    by_cases hh : hasId (apply_changes c s) r.id
    · exact updateAward_fixed r _ hh (hF2a r hr) (hF2b r hr hh)
    · exact updateAward_of_not_hasId r _ hh
  have hD : foldDel c.eliminadasIds (apply_changes c s) = apply_changes c s := by
    unfold foldDel
    exact list_foldl_fixed _ _ _
      (fun i hi => deleteAward_of_not_hasId i _ (hF3 i hi))
  conv_lhs => rw [apply_changes, hI, hU, hD]

/-- Witness for C5: a concrete store and changeset — one insert, one
update, one delete — applied twice equals applied once. -/
theorem apply_changes_idempotent_witness :
    apply_changes
      ⟨[⟨4, 8, 2024, 9, 500, 6⟩], [⟨1, 7, 2024, 9, 120, 5⟩], [2]⟩
      (apply_changes
        ⟨[⟨4, 8, 2024, 9, 500, 6⟩], [⟨1, 7, 2024, 9, 120, 5⟩], [2]⟩
        (runAwardOps [.ins ⟨1, 7, 2024, 9, 100, 5⟩, .ins ⟨2, 7, 2024, 9, 50, 3⟩]
          initStore)) =
    apply_changes
      ⟨[⟨4, 8, 2024, 9, 500, 6⟩], [⟨1, 7, 2024, 9, 120, 5⟩], [2]⟩
      (runAwardOps [.ins ⟨1, 7, 2024, 9, 100, 5⟩, .ins ⟨2, 7, 2024, 9, 50, 3⟩]
        initStore) :=
  apply_changes_idempotent
    (runAwardOps [.ins ⟨1, 7, 2024, 9, 100, 5⟩, .ins ⟨2, 7, 2024, 9, 50, 3⟩]
      initStore)
    ⟨[⟨4, 8, 2024, 9, 500, 6⟩], [⟨1, 7, 2024, 9, 120, 5⟩], [2]⟩
    (by decide) (by decide)

lemma insertRows_of_failure (ok : LoadRow → Bool) (batch : List LoadRow)
    (r : LoadRow) (hr : r ∈ batch) (hfail : ok r = false) :
    ∀ tbl, insertRows ok tbl batch = none := by
  induction batch with
  | nil => cases hr
  | cons x rs ih =>
      intro tbl
      by_cases hx : ok x = true
      · have hrs : r ∈ rs := by
          rcases List.mem_cons.mp hr with hEq | hMem
          · exact absurd (hEq ▸ hx) (by simp [hfail])
          · exact hMem
        simp [insertRows, hx, ih hrs]
      · simp [insertRows, Bool.eq_false_iff.mpr hx]

lemma insertRows_of_success (ok : LoadRow → Bool) (batch : List LoadRow)
    (hall : ∀ r ∈ batch, ok r = true) :
    ∀ tbl, insertRows ok tbl batch = some (tbl ++ batch) := by
  induction batch with
  | nil => intro tbl; simp [insertRows]
  | cons x rs ih =>
      intro tbl
      have hx : ok x = true := hall x (List.mem_cons_self x rs)
      have hrest := ih (fun r hrm => hall r (List.mem_cons_of_mem x hrm))
      simp [insertRows, hx, hrest]

/-- C4: batch loading is atomic: when any row of the batch fails (the
concrete conjunct injects the failure on the last row), the committed
table is exactly the pre-batch table — zero rows of the batch committed —
and the run reports one `BatchLoadError`; when every row succeeds the
whole batch is committed in the one transaction with no error. -/
theorem load_batch_atomic (ok : LoadRow → Bool) (tbl batch : List LoadRow) :
    ((∃ r ∈ batch, ok r = false) →
      load_batch ok tbl batch = (tbl, some .batchFailed)) ∧
    ((∀ r ∈ batch, ok r = true) →
      load_batch ok tbl batch = (tbl ++ batch, none)) ∧
    load_batch (fun r => r.id < 3) []
        [⟨1, 10⟩, ⟨2, 20⟩, ⟨3, 30⟩] = ([], some .batchFailed) := by
  refine ⟨?_, ?_, by decide⟩
  · rintro ⟨r, hr, hfail⟩
    simp [load_batch, insertRows_of_failure ok batch r hr hfail tbl]
  · intro hall
    simp [load_batch, insertRows_of_success ok batch hall tbl]

/-- Witness for C6 at `maxRetries = 3` and a concrete operation
sequence of three claim/fail rounds followed by a claim attempt. -/
theorem job_retries_never_exceed_max_witness :
    (runJob 3 [.claimOp, .failOp "e1", .claimOp, .failOp "e2", .claimOp,
        .failOp "e3", .claimOp] initJobUnit).retries ≤ 3 ∧
    ((runJob 3 [.claimOp, .failOp "e1", .claimOp, .failOp "e2", .claimOp,
        .failOp "e3", .claimOp] initJobUnit).status = .error →
      (runJob 3 [.claimOp, .failOp "e1", .claimOp, .failOp "e2", .claimOp,
        .failOp "e3", .claimOp] initJobUnit).retries = 3) ∧
    (∀ u : JobUnit, u.status = .error → ∀ op, stepJob 3 op u = u) ∧
    (∀ u : JobUnit, ∀ reason, u.status = .running →
      (stepJob 3 (.failOp reason) u).retries = u.retries + 1 ∧
      ((stepJob 3 (.failOp reason) u).status = .pending ↔ u.retries + 1 < 3) ∧
      ((stepJob 3 (.failOp reason) u).status = .error ↔ ¬ u.retries + 1 < 3)) :=
  job_retries_never_exceed_max 3
    [.claimOp, .failOp "e1", .claimOp, .failOp "e2", .claimOp, .failOp "e3",
      .claimOp] (by decide)

lemma pickFold_spec : ∀ (rest : List String) (n : String),
    pickFold n rest ∈ n :: rest ∧
    ∀ x ∈ n :: rest,
      (normalizeName x).length ≤ (normalizeName (pickFold n rest)).length := by
  intro rest
  induction rest with
  | nil =>
      intro n
      refine ⟨List.mem_cons_self n [], ?_⟩
      intro x hx
      rcases List.mem_cons.mp hx with rfl | hx2
      · exact le_refl _
      · cases hx2
  | cons y ys ih =>
      intro n
      have hstep : pickFold n (y :: ys) =
          pickFold
            (if (normalizeName n).length < (normalizeName y).length then y else n)
            ys := rfl
      obtain ⟨hmem, hle⟩ :=
        ih (if (normalizeName n).length < (normalizeName y).length then y else n)
      rw [hstep]
      constructor
      · rcases List.mem_cons.mp hmem with heq | hmem2
        · by_cases hc : (normalizeName n).length < (normalizeName y).length
          · rw [if_pos hc] at heq
            rw [if_pos hc, heq]
            exact List.mem_cons_of_mem n (List.mem_cons_self y ys)
          · rw [if_neg hc] at heq
            rw [if_neg hc, heq]
            exact List.mem_cons_self n _
        · exact List.mem_cons_of_mem n (List.mem_cons_of_mem y hmem2)
      · intro x hx
        rcases List.mem_cons.mp hx with rfl | hx2
        · refine le_trans ?_ (hle _ (List.mem_cons_self _ _))
          by_cases hc : (normalizeName x).length < (normalizeName y).length
          · rw [if_pos hc]
            exact Nat.le_of_lt hc
          · rw [if_neg hc]
        · rcases List.mem_cons.mp hx2 with rfl | hx3
          · refine le_trans ?_ (hle _ (List.mem_cons_self _ _))
            by_cases hc : (normalizeName n).length < (normalizeName x).length
            · rw [if_pos hc]
            · rw [if_neg hc]
              exact Nat.le_of_not_lt hc
          · exact hle x (List.mem_cons_of_mem _ hx3)

lemma mem_load_pseudonimos (newPs : List (Nat × String)) :
    ∀ store : List (Nat × String), ∀ p ∈ store,
      p ∈ load_pseudonimos store newPs := by
  induction newPs with
  | nil => exact fun store p hp => hp
  | cons x xs ih =>
      intro store p hp
      have hstep : load_pseudonimos store (x :: xs) =
          load_pseudonimos (if x ∈ store then store else store ++ [x]) xs := rfl
      rw [hstep]
      refine ih _ p ?_
      by_cases hx : x ∈ store
      · rwa [if_pos hx]
      · rw [if_neg hx]
        exact List.mem_append_left _ hp

/-- C7: for a non-empty set of names observed for one identifier, the
Transformer picks a canonical name deterministically — a member whose
normalized form is longest — and files every other observed name as a
pseudonym; stored pseudonyms only grow (`ON CONFLICT DO NOTHING`
append, never deleted); and for identifier 777 observed as "Acme Corp"
and "ACME CORP SL", the canonical name is "ACME CORP SL" and
"Acme Corp" becomes a pseudonym of 777. -/
theorem canonical_longest_pseudonyms_appended (names : List String)
    (hne : names ≠ []) :
    (∃ c, pickCanonical names = some c ∧ c ∈ names ∧
      (∀ n ∈ names, (normalizeName n).length ≤ (normalizeName c).length) ∧
      pseudonymsOf names = names.filter (fun n => ¬ n = c)) ∧
    (∀ store newPs : List (Nat × String), ∀ p ∈ store,
      p ∈ load_pseudonimos store newPs) ∧
    pickCanonical ["Acme Corp", "ACME CORP SL"] = some "ACME CORP SL" ∧
    pseudonimosFor 777 ["Acme Corp", "ACME CORP SL"] = [(777, "Acme Corp")] := by
  obtain ⟨n, rest, rfl⟩ := List.exists_cons_of_ne_nil hne
  obtain ⟨hmem, hle⟩ := pickFold_spec rest n
  refine ⟨⟨pickFold n rest, rfl, hmem, hle, ?_⟩,
    fun store newPs => mem_load_pseudonimos newPs store, by decide, by decide⟩
  simp [pseudonymsOf, pickCanonical]

/-- Witness for C7 at the names observed for identifier 777. -/
theorem canonical_longest_pseudonyms_appended_witness :
    (∃ c, pickCanonical ["Acme Corp", "ACME CORP SL"] = some c ∧
      c ∈ ["Acme Corp", "ACME CORP SL"] ∧
      (∀ n ∈ ["Acme Corp", "ACME CORP SL"],
        (normalizeName n).length ≤ (normalizeName c).length) ∧
      pseudonymsOf ["Acme Corp", "ACME CORP SL"] =
        ["Acme Corp", "ACME CORP SL"].filter (fun n => ¬ n = c)) ∧
    (∀ store newPs : List (Nat × String), ∀ p ∈ store,
      p ∈ load_pseudonimos store newPs) ∧
    pickCanonical ["Acme Corp", "ACME CORP SL"] = some "ACME CORP SL" ∧
    pseudonimosFor 777 ["Acme Corp", "ACME CORP SL"] = [(777, "Acme Corp")] :=
  canonical_longest_pseudonyms_appended ["Acme Corp", "ACME CORP SL"]
    (by decide)

lemma resolve_none_iff (conv reg : List (String × Nat)) (r : RawConcesion) :
    resolveConcesion conv reg r = none ↔
      lookupRef conv r.convocatoriaRef = none := by
  simp [resolveConcesion]

lemma transform_loop (conv reg : List (String × Nat)) (raws : List RawConcesion) :
    ∀ acc : List EnrichedConcesion × List Incidencia,
      raws.foldl (transStep conv reg) acc =
        (acc.1 ++ raws.filterMap (resolveConcesion conv reg),
         acc.2 ++ (raws.filter
           (fun r => lookupRef conv r.convocatoriaRef = none)).map
             concesionIncident) := by
  induction raws with
  | nil => intro acc; simp
  | cons r rs ih =>
      intro acc
      rw [List.foldl_cons, ih]
      rcases hres : resolveConcesion conv reg r with _ | e
      · have hl : lookupRef conv r.convocatoriaRef = none :=
          (resolve_none_iff conv reg r).mp hres
        simp [transStep, hres, List.filterMap_cons, List.filter_cons, hl]
      · have hl : ¬ (lookupRef conv r.convocatoriaRef = none) := by
          intro hh
          rw [(resolve_none_iff conv reg r).mpr hh] at hres
          cases hres
        simp [transStep, hres, List.filterMap_cons, List.filter_cons, hl]

/-- C8: the Transformer's enriched output is exactly the records whose
call FK resolves (records with an unresolvable non-critical FK kept with
that FK null), and its incident log is exactly one incident, carrying
the record's natural key, per record whose call FK is unresolvable —
dropped records never appear in the output handed to the Loader, and a
dropped record does not block later records: on the concrete batch, the
record with call reference "X123" missing from the call table is dropped
with one incident while the later record still loads, with its
unresolvable region reference null-filled. -/
theorem transform_concesiones_drops_logs_continues
    (conv reg : List (String × Nat)) (raws : List RawConcesion) :
    (transform_concesiones conv reg raws).1 =
      raws.filterMap (resolveConcesion conv reg) ∧
    (transform_concesiones conv reg raws).2 =
      (raws.filter (fun r => lookupRef conv r.convocatoriaRef = none)).map
        concesionIncident ∧
    transform_concesiones [("C1", 11)] []
        [⟨"X123", "X123", none, 10⟩, ⟨"K2", "C1", some "R9", 20⟩] =
      ([⟨"K2", 11, none, 20⟩], [⟨"concesion", "X123", "convocatoria"⟩]) := by
  refine ⟨?_, ?_, by decide⟩ <;>
    simp [transform_concesiones, transform_loop conv reg raws ([], [])]

/-- C9: every exported fetch function of the frontend GraphQL service
returns the empty array both on a request error and on a response
lacking the selected field, and returns the field's rows otherwise — so
a failed query is indistinguishable from a query with zero results. -/
theorem graphql_fetchers_return_empty_on_error :
    (∀ (e : GraphQLError) (l : List EstadisticaOrgano),
      fetchEstadisticasPorOrgano (.error e) = [] ∧
      fetchEstadisticasPorOrgano (.ok none) = [] ∧
      fetchEstadisticasPorOrgano (.ok (some l)) = l ∧
      fetchEstadisticasPorOrgano (.error e) =
        fetchEstadisticasPorOrgano (.ok (some []))) ∧
    (∀ (e : GraphQLError) (l : List EstadisticaTipoEntidad),
      fetchEstadisticasPorTipoEntidad (.error e) = [] ∧
      fetchEstadisticasPorTipoEntidad (.ok none) = [] ∧
      fetchEstadisticasPorTipoEntidad (.ok (some l)) = l ∧
      fetchEstadisticasPorTipoEntidad (.error e) =
        fetchEstadisticasPorTipoEntidad (.ok (some []))) ∧
    (∀ (filtros : List (String × String)) (limite offset : Int)
        (e : GraphQLError) (l : List ConcesionRow),
      fetchConcesiones filtros limite offset (.error e) = [] ∧
      fetchConcesiones filtros limite offset (.ok none) = [] ∧
      fetchConcesiones filtros limite offset (.ok (some l)) = l ∧
      fetchConcesiones filtros limite offset (.error e) =
        fetchConcesiones filtros limite offset (.ok (some []))) ∧
    (∀ (filtros : List (String × String)) (limite offset : Int)
        (e : GraphQLError) (l : List BeneficiarioRow),
      fetchBeneficiarios filtros limite offset (.error e) = [] ∧
      fetchBeneficiarios filtros limite offset (.ok none) = [] ∧
      fetchBeneficiarios filtros limite offset (.ok (some l)) = l ∧
      fetchBeneficiarios filtros limite offset (.error e) =
        fetchBeneficiarios filtros limite offset (.ok (some []))) ∧
    (∀ (anio : Option Int) (te : Option String) (limite : Int)
        (e : GraphQLError) (l : List ConcentracionRow),
      fetchConcentracion anio te limite (.error e) = [] ∧
      fetchConcentracion anio te limite (.ok none) = [] ∧
      fetchConcentracion anio te limite (.ok (some l)) = l ∧
      fetchConcentracion anio te limite (.error e) =
        fetchConcentracion anio te limite (.ok (some []))) :=
  ⟨fun _ _ => ⟨rfl, rfl, rfl, rfl⟩,
   fun _ _ => ⟨rfl, rfl, rfl, rfl⟩,
   fun _ _ _ _ _ => ⟨rfl, rfl, rfl, rfl⟩,
   fun _ _ _ _ _ => ⟨rfl, rfl, rfl, rfl⟩,
   fun _ _ _ _ _ => ⟨rfl, rfl, rfl, rfl⟩⟩

lemma statsFold_totals (data : List EstadisticaOrgano) :
    ∀ acc : Int × ℚ × List String,
      (data.foldl statsStep acc).1 =
        acc.1 + (data.map (fun i => i.numero_concesiones.getD 0)).sum ∧
      (data.foldl statsStep acc).2.1 =
        acc.2.1 + (data.map (fun i => i.importe_total.getD 0)).sum := by
  induction data with
  | nil => intro acc; simp
  | cons x xs ih =>
      intro acc
      rw [List.foldl_cons]
      obtain ⟨h1, h2⟩ := ih (statsStep acc x)
      constructor
      · rw [h1]
        show acc.1 + x.numero_concesiones.getD 0 + _ = _
        rw [List.map_cons, List.sum_cons]
        ring
      · rw [h2]
        show acc.2.1 + x.importe_total.getD 0 + _ = _
        rw [List.map_cons, List.sum_cons]
        ring

/-- C10: for every response of `fetchEstadisticasPorOrgano`, the
dashboard's displayed beneficiary count equals
`floor(0.8 * (sum of numero_concesiones))` — an estimate derived solely
from the grant count, not from beneficiary data — while
`totalConcesiones` and `totalImporte` are the exact sums of
`numero_concesiones` and `importe_total` with missing values as 0. -/
theorem dashboard_beneficiarios_is_estimate (data : List EstadisticaOrgano) :
    (computeDashboardStats data).totalConcesiones =
      (data.map (fun i => i.numero_concesiones.getD 0)).sum ∧
    (computeDashboardStats data).totalImporte =
      (data.map (fun i => i.importe_total.getD 0)).sum ∧
    (computeDashboardStats data).beneficiarios =
      ⌊(((data.map (fun i => i.numero_concesiones.getD 0)).sum : ℚ)) *
        (4 / 5 : ℚ)⌋ := by
  obtain ⟨h1, h2⟩ := statsFold_totals data (0, 0, [])
  refine ⟨?_, ?_, ?_⟩
  · show (data.foldl statsStep (0, 0, [])).1 = _
    rw [h1]
    ring
  · show (data.foldl statsStep (0, 0, [])).2.1 = _
    rw [h2]
    ring
  · show (⌊((data.foldl statsStep (0, 0, [])).1 : ℚ) * (0.8 : ℚ)⌋ : ℤ) = _
    rw [h1]
    norm_num
    rfl

end BDNS
